import Mathlib

/-
Shallow embedding of the core data pipeline of the portfolio-vs-benchmark
analysis application (source: streamlit_app.py): the numeric normalizer
clean_percentage, the holdings loader load_and_clean_data, the portfolio
aggregator aggregate_portfolio_data, and the overlap statistic overlap_pct.

Modelling conventions:
- Python floats are modelled as exact rationals (ℚ).  All arithmetic the
  pipeline performs (addition, multiplication, division by 100) is exact on
  the decimal values occurring here, so rational arithmetic is the intended
  idealised semantics; IEEE special values (inf/nan) are not representable.
- The strings fed to the numeric normalizer are modelled as List Char, so
  that strip/replace/parse can be reasoned about structurally.  A pandas NaN
  cell is modelled as `none`.
- A pandas DataFrame is modelled as a list of rows plus one Boolean per
  required column recording whether that column is present in the file.
  Accessing an absent column raises a KeyError in Python; the model guards
  every such access with the corresponding Boolean and returns `none`
  (for exceptions caught by the code) or propagates failure (for uncaught
  ones).
-/

namespace EquityComposition

/- ------------------------------------------------------------------ -/
/- Numeric Normalizer: clean_percentage                               -/
/- ------------------------------------------------------------------ -/

/-- One character of Python `str.replace` with arguments comma and dot. -/
def swapComma (c : Char) : Char := if c = ',' then '.' else c

/-- Python `replace` of comma by dot: every comma becomes a dot. -/
def commaToDot (l : List Char) : List Char := l.map swapComma

/-- Python `str.strip`: drop whitespace from both ends. -/
def pyStrip (l : List Char) : List Char :=
  ((l.dropWhile Char.isWhitespace).reverse.dropWhile Char.isWhitespace).reverse

/-- Longest digit prefix of a character list, together with the rest. -/
def takeDigits : List Char → List Char × List Char
  | [] => ([], [])
  | c :: t =>
    if c.isDigit then
      let p := takeDigits t
      (c :: p.1, p.2)
    else ([], c :: t)

/-- Numeric value of a digit string, most significant digit first. -/
def digitsVal (ds : List Char) : ℕ :=
  ds.foldl (fun a c => 10 * a + (c.toNat - 48)) 0

/-- Mantissa of a Python float literal: `digits [. digits]` or `. digits`,
with at least one digit; returns its value and the unconsumed suffix. -/
def parseMantissa (l : List Char) : Option (ℚ × List Char) :=
  let ip := takeDigits l
  match ip.2 with
  | '.' :: r₂ =>
    let fp := takeDigits r₂
    if ip.1.isEmpty && fp.1.isEmpty then none
    else some ((digitsVal ip.1 : ℚ) + (digitsVal fp.1 : ℚ) / 10 ^ fp.1.length, fp.2)
  | _ => if ip.1.isEmpty then none else some ((digitsVal ip.1 : ℚ), ip.2)

/-- The optional leading sign of a (mantissa or exponent) literal: whether
it is negative, and the remaining characters. -/
def stripSign (l : List Char) : Bool × List Char :=
  match l with
  | '+' :: t => (false, t)
  | '-' :: t => (true, t)
  | _ => (false, l)

/-- Exponent of a Python float literal (the part after `e`/`E`): an optional
sign and a nonempty digit string, with nothing left over. -/
def parseExpNum (l : List Char) : Option ℤ :=
  let sp := stripSign l
  let ds := takeDigits sp.2
  if ds.1.isEmpty || !ds.2.isEmpty then none
  else some (if sp.1 then -(digitsVal ds.1 : ℤ) else (digitsVal ds.1 : ℤ))

/-- Application of the leading sign of a float literal to its magnitude. -/
def applySign (neg : Bool) (q : ℚ) : ℚ := if neg then -q else q

/-- Python `float` on a string, restricted to the finite decimal-literal
fragment `[sign] (digits [. digits] | . digits) [(e|E) [sign] digits]`,
valued in ℚ.  The special spellings inf/infinity/nan and digit-group
underscores are outside the model (they denote IEEE values a rational
semantics cannot carry); on every other string this is Python `float`:
a parse gives its exact decimal value, anything else fails. -/
def parseFloat (l : List Char) : Option ℚ :=
  let sp := stripSign l
  match parseMantissa sp.2 with
  | none => none
  | some (m, rest) =>
    match rest with
    | [] => some (applySign sp.1 m)
    | c :: t =>
      if c = 'e' ∨ c = 'E' then
        match parseExpNum t with
        | none => none
        | some e => some (applySign sp.1 (m * (10 : ℚ) ^ e))
      else none

/-- `clean_percentage` from the source: `none` models a pandas-NaN cell
(`pd.isna`), and the empty string is also mapped to 0; otherwise the value
is stripped, every comma is replaced by a dot, and the result is parsed by
`float`, any parse failure silently becoming 0 (the bare `except`). -/
def clean_percentage : Option (List Char) → ℚ
  | none => 0
  | some v =>
    if v = [] then 0
    else
      match parseFloat (commaToDot (pyStrip v)) with
      | some q => q
      | none => 0

/-- A Python float value as `float(s)` can return it: a finite value (kept
exact as a rational; float64 rounding is not modelled), one of the two
IEEE infinities, or NaN. -/
inductive PyFloat where
  | fin (q : ℚ)
  | inf
  | ninf
  | nan
deriving DecidableEq, Repr

/-- Lower-casing of an ASCII letter, for the case-insensitive special
spellings accepted by Python `float`. -/
def charLower (c : Char) : Char :=
  if 'A' ≤ c ∧ c ≤ 'Z' then Char.ofNat (c.toNat + 32) else c

/-- The spellings `inf` and `infinity` (any case) that Python `float` maps
to an IEEE infinity. -/
def isInfSpelling (l : List Char) : Bool :=
  l.map charLower = ['i', 'n', 'f'] ||
    l.map charLower = ['i', 'n', 'f', 'i', 'n', 'i', 't', 'y']

/-- The spelling `nan` (any case) that Python `float` maps to IEEE NaN. -/
def isNanSpelling (l : List Char) : Bool :=
  l.map charLower = ['n', 'a', 'n']

/-- Python `float` including the IEEE special results: an optional sign
followed by an inf/nan spelling gives the corresponding special value, and
otherwise the string parses through the decimal-literal fragment
(`parseFloat`) to a finite value.  Float64 rounding, overflow of huge
literals (`1e999` → inf) and digit-group underscores remain outside the
model. -/
def pyFloatOfChars (l : List Char) : Option PyFloat :=
  let sp := stripSign l
  if isInfSpelling sp.2 then some (if sp.1 then PyFloat.ninf else PyFloat.inf)
  else if isNanSpelling sp.2 then some PyFloat.nan
  else (parseFloat l).map PyFloat.fin

/-- `clean_percentage` under the IEEE-aware parse: the same guard, strip
and comma replacement as `clean_percentage`, with `pyFloatOfChars` in place
of the finite-only `parseFloat`. -/
def clean_percentage_ieee : Option (List Char) → PyFloat
  | none => PyFloat.fin 0
  | some v =>
    if v = [] then PyFloat.fin 0
    else
      match pyFloatOfChars (commaToDot (pyStrip v)) with
      | some x => x
      | none => PyFloat.fin 0

/-- Python `> 0` on a float value: positive finite values and +inf pass,
-inf fails, and any comparison against NaN is false. -/
def PyFloat.gtZero : PyFloat → Bool
  | PyFloat.fin q => 0 < q
  | PyFloat.inf => true
  | PyFloat.ninf => false
  | PyFloat.nan => false

/-- Finiteness of a float value (NaN is not finite). -/
def PyFloat.isFinite : PyFloat → Bool
  | PyFloat.fin _ => true
  | _ => false

/- ------------------------------------------------------------------ -/
/- Holdings Loader: load_and_clean_data                               -/
/- ------------------------------------------------------------------ -/

/-- One data row of an uploaded CSV (after the two skipped metadata rows).
A field is meaningful only when the corresponding column-presence flag of
the enclosing `RawTable` is set.  The percentage cell is kept raw and the
sector/region cells are optional: `none` models a pandas NaN (an empty CSV
cell), which matters because `groupby` silently drops NaN keys.  (A NaN
ticker or name would hit Python's identity-based dict/NaN semantics and a
NaN asset class simply fails the equality filter; those stay plain
strings.) -/
structure RawRow where
  ticker : String
  nome : String
  ponderazione : Option (List Char)
  assetClass : String
  settore : Option String
  area : Option String
deriving DecidableEq, Repr

/-- An uploaded file as pandas sees it after `read_csv(..., skiprows=2)`:
its rows plus, for each of the six required columns, whether that column is
present.  `readable` is false when `read_csv` itself raises (malformed or
unreadable stream). -/
structure RawTable where
  readable : Bool
  hasTicker : Bool
  hasNome : Bool
  hasPond : Bool
  hasAsset : Bool
  hasSettore : Bool
  hasArea : Bool
  rows : List RawRow
deriving DecidableEq, Repr

/-- A row of the cleaned DataFrame: the original columns plus the computed
column of cleaned weights (`Ponderazione_Clean`). -/
structure CleanRow where
  ticker : String
  nome : String
  ponderazione : Option (List Char)
  assetClass : String
  settore : Option String
  area : Option String
  weight : ℚ
deriving DecidableEq, Repr

/-- The cleaned DataFrame returned by a successful `load_and_clean_data`:
the filtered rows, still tagged with the presence flags of the columns the
loader never touched (they are only read later, by the aggregator). -/
structure CleanDF where
  hasTicker : Bool
  hasNome : Bool
  hasSettore : Bool
  hasArea : Bool
  rows : List CleanRow
deriving DecidableEq, Repr

/-- Computation of the `Ponderazione_Clean` column for one row. -/
def addCleanCol (r : RawRow) : CleanRow :=
  { ticker := r.ticker, nome := r.nome, ponderazione := r.ponderazione
    assetClass := r.assetClass, settore := r.settore, area := r.area
    weight := clean_percentage r.ponderazione }

/-- The row filter of the loader: keep equity rows with positive cleaned
weight. -/
def keepRow (r : CleanRow) : Bool :=
  r.assetClass = "Azionario" && 0 < r.weight

/-- `load_and_clean_data` from the source.  Inside its `try` the code reads
the file, applies `clean_percentage` to the `Ponderazione (%)` column and
filters on the `Asset Class` column; any exception (unreadable file, or a
KeyError because one of those two columns is absent) is caught and turned
into `None`.  The other four required columns are never accessed here, so
their absence does NOT make the loader fail. -/
def load_and_clean_data (t : RawTable) : Option CleanDF :=
  if t.readable && t.hasPond && t.hasAsset then
    some { hasTicker := t.hasTicker, hasNome := t.hasNome
           hasSettore := t.hasSettore, hasArea := t.hasArea
           rows := (t.rows.map addCleanCol).filter keepRow }
  else none

/-- The weight column of a loaded file under the IEEE-aware parse: the same
try-guard and the same row filter (`Asset Class == 'Azionario'` and
cleaned weight `> 0`) as `load_and_clean_data`, applied to
`clean_percentage_ieee`.  Used to settle what the filter lets through when
a percentage cell spells an IEEE special value. -/
def loadedWeights_ieee (t : RawTable) : Option (List PyFloat) :=
  if t.readable && t.hasPond && t.hasAsset then
    some (((t.rows.map
        (fun r => (r.assetClass, clean_percentage_ieee r.ponderazione))).filter
      (fun p => p.1 = "Azionario" && p.2.gtZero)).map (fun p => p.2))
  else none

/- ------------------------------------------------------------------ -/
/- Portfolio Aggregator: aggregate_portfolio_data                     -/
/- ------------------------------------------------------------------ -/

/-- The value stored in `portfolio_holdings` under one ticker.  The sector
and region fields are copied verbatim from the inserting row, so a NaN
label is stored as `none`. -/
structure HoldingEntry where
  name : String
  weight : ℚ
  sector : Option String
  region : Option String
deriving DecidableEq, Repr

/-- The three mappings built by the aggregator.  Python dicts are modelled
as association lists with unique keys: membership test is `List.lookup`,
updating an existing key rewrites its first occurrence in place, inserting
a fresh key appends at the end (dict insertion order). -/
structure AggState where
  holdings : List (String × HoldingEntry)
  sectors : List (String × ℚ)
  regions : List (String × ℚ)
deriving DecidableEq, Repr

/-- Python dict lookup on the association-list model. -/
def lookupKey (x : String) : List (String × α) → Option α
  | [] => none
  | (k, v) :: rest => if x = k then some v else lookupKey x rest

/-- In-place update of the entry stored under an existing key. -/
def dictUpdate (f : HoldingEntry → HoldingEntry) (t : String) :
    List (String × HoldingEntry) → List (String × HoldingEntry)
  | [] => []
  | (k, v) :: rest =>
    if k = t then (k, f v) :: rest else (k, v) :: dictUpdate f t rest

/-- One iteration of the holdings loop of the aggregator: compute the
contribution of one row and either add it to the stored weight of an
already-present ticker (descriptive fields untouched) or insert a fresh
entry carrying the row's name/sector/region. -/
def stepHolding (w : ℚ) (m : List (String × HoldingEntry)) (r : CleanRow) :
    List (String × HoldingEntry) :=
  let contribution := r.weight * w / 100
  match lookupKey r.ticker m with
  | some _ => dictUpdate (fun e => { e with weight := e.weight + contribution }) r.ticker m
  | none => m ++ [(r.ticker, ⟨r.nome, contribution, r.settore, r.area⟩)]

/-- Python `d[k] = d.get(k, 0) + c` on a dict: update the first occurrence
in place, or append the key with value `c`. -/
def bumpKey (k : String) (c : ℚ) : List (String × ℚ) → List (String × ℚ)
  | [] => [(k, c)]
  | (k', v) :: rest =>
    if k' = k then (k', v + c) :: rest else (k', v) :: bumpKey k c rest

/-- Per-file sum of cleaned weights over the rows carrying one given key
(one group of `df.groupby(col)[Ponderazione_Clean].sum()`). -/
def groupSum (key : CleanRow → Option String) (rows : List CleanRow)
    (s : String) : ℚ :=
  ((rows.filter (fun r => key r = some s)).map (·.weight)).sum

/-- The distinct keys of a grouped column.  pandas `groupby` drops NaN keys
(its default), so only the present (`some`) labels form groups — a row with
a NaN sector contributes to no sector group at all.  pandas also emits the
keys sorted; the model enumerates them in order of first appearance.  Only
the enumeration order differs, and since every key is bumped exactly once
per file, the resulting dict differs at most in entry order — every theorem
below reads the mappings through `lookup`, which is order-blind. -/
def groupKeys (key : CleanRow → Option String) (rows : List CleanRow) :
    List String :=
  (rows.filterMap key).dedup

/-- The aggregation work done for one successfully loaded file: the holdings
loop over the rows, then the per-sector and per-region subtotals, each
scaled by `weight / 100` and accumulated into the global mappings. -/
def aggregateFund (st : AggState) (df : CleanDF) (w : ℚ) : AggState :=
  { holdings := df.rows.foldl (stepHolding w) st.holdings
    sectors := (groupKeys (·.settore) df.rows).foldl
      (fun m s => bumpKey s (groupSum (·.settore) df.rows s * w / 100) m) st.sectors
    regions := (groupKeys (·.area) df.rows).foldl
      (fun m s => bumpKey s (groupSum (·.area) df.rows s * w / 100) m) st.regions }

/-- Columns the aggregation body reads from a loaded file without any
exception handler: the ticker and name columns for each iterated row (so
only when there are rows), and the sector and region columns for the two
`groupby` calls (even on an empty frame).  A loaded file failing this check
makes the whole aggregation call raise. -/
def fundColsOk (df : CleanDF) : Bool :=
  (df.rows.isEmpty || (df.hasTicker && df.hasNome)) && df.hasSettore && df.hasArea

/-- The fund loop of `aggregate_portfolio_data` over the zipped
(file, weight) pairs: a file whose loader returns `None` is skipped; a file
that loads but lacks a column the aggregation body reads raises an uncaught
KeyError, modelled as `none` for the whole call. -/
def aggregateAux : List (RawTable × ℚ) → AggState → Option AggState
  | [], st => some st
  | (f, w) :: rest, st =>
    match load_and_clean_data f with
    | none => aggregateAux rest st
    | some df =>
      if fundColsOk df then aggregateAux rest (aggregateFund st df w) else none

/-- `aggregate_portfolio_data` from the source: fold the fund loop over
`zip(etf_files, weights)` starting from three empty dicts. -/
def aggregate_portfolio_data (etf_files : List RawTable) (weights : List ℚ) :
    Option AggState :=
  aggregateAux (etf_files.zip weights) ⟨[], [], []⟩

/-- The same aggregation expressed directly on the successfully loaded
funds (a FundInput = cleaned records plus allocation percent): the
`df is not None` branch of the source loop, iterated. -/
def aggregateLoaded (fs : List (CleanDF × ℚ)) : AggState :=
  fs.foldl (fun st p => aggregateFund st p.1 p.2) ⟨[], [], []⟩

/-- Weight stored in a holdings mapping for one identifier (0 when the
identifier is absent). -/
def weightAt (m : List (String × HoldingEntry)) (x : String) : ℚ :=
  match lookupKey x m with
  | some e => e.weight
  | none => 0

/-- Weight stored in the aggregated holdings for one identifier. -/
def holdingsWeight (st : AggState) (x : String) : ℚ :=
  weightAt st.holdings x

/-- Value of a sector/region mapping at one key (0 when absent). -/
def lookupOr0 (m : List (String × ℚ)) (k : String) : ℚ :=
  match lookupKey k m with
  | some v => v
  | none => 0

/-- Sum of the cleaned weights of the records of a row list carrying one
given identifier (0 when absent). -/
def rowsWeightFor (rows : List CleanRow) (x : String) : ℚ :=
  ((rows.filter (fun r => r.ticker = x)).map (·.weight)).sum

/-- A fund's raw weight for one identifier. -/
def fundWeightFor (df : CleanDF) (x : String) : ℚ :=
  rowsWeightFor df.rows x

/-- The weighted sum the spec ascribes to an aggregated holding: over all
funds, the fund's raw weight for the identifier times its allocation
percent over 100. -/
def weightedSum (fs : List (CleanDF × ℚ)) (x : String) : ℚ :=
  (fs.map (fun p => fundWeightFor p.1 x * p.2 / 100)).sum

/-- Total weight mass of a holdings mapping. -/
def totalHold (m : List (String × HoldingEntry)) : ℚ :=
  (m.map (fun p => p.2.weight)).sum

/-- Total weight mass of a sector/region mapping. -/
def totalVals (m : List (String × ℚ)) : ℚ :=
  (m.map (·.2)).sum

/-- Total cleaned weight of a row list (a fund's equity-filtered per-record
weight total). -/
def rowsTotal (rows : List CleanRow) : ℚ :=
  (rows.map (·.weight)).sum

/-- Total mass contributed by a fund list: for each fund its equity-filtered
weight total times its allocation percent over 100, summed. -/
def massOf (fs : List (CleanDF × ℚ)) : ℚ :=
  (fs.map (fun p => rowsTotal p.1.rows * p.2 / 100)).sum

/-- Total cleaned weight of the rows whose grouping label is present (not
NaN): exactly the mass `groupby` keeps for that column. -/
def labelledTotal (key : CleanRow → Option String) (rows : List CleanRow) : ℚ :=
  ((rows.filter (fun r => (key r).isSome)).map (·.weight)).sum

/-- Total mass reaching the sector mapping from a fund list: for each fund
the weight total of its sector-labelled rows times its allocation percent
over 100, summed.  Rows with a NaN sector are excluded by `groupby`. -/
def sectorMassOf (fs : List (CleanDF × ℚ)) : ℚ :=
  (fs.map (fun p => labelledTotal (fun r => r.settore) p.1.rows * p.2 / 100)).sum

/-- The region analogue of `sectorMassOf`. -/
def regionMassOf (fs : List (CleanDF × ℚ)) : ℚ :=
  (fs.map (fun p => labelledTotal (fun r => r.area) p.1.rows * p.2 / 100)).sum

/-- The weighted sector subtotal the spec ascribes to the aggregated sector
mapping: over all funds, the fund's per-sector weight sum times its
allocation percent over 100. -/
def sectorSumList (fs : List (CleanDF × ℚ)) (s : String) : ℚ :=
  (fs.map (fun p => groupSum (fun r => r.settore) p.1.rows s * p.2 / 100)).sum

/-- The region analogue of `sectorSumList`. -/
def regionSumList (fs : List (CleanDF × ℚ)) (s : String) : ℚ :=
  (fs.map (fun p => groupSum (fun r => r.area) p.1.rows s * p.2 / 100)).sum

/-- First record carrying a given identifier across the concatenated record
streams of a fund list, in processing order. -/
def firstRecordWith (fs : List (CleanDF × ℚ)) (x : String) : Option CleanRow :=
  (fs.flatMap (fun p => p.1.rows)).find? (fun r => r.ticker = x)

/-- Descriptive fields of a stored holdings entry. -/
def entryDescr (e : HoldingEntry) : String × Option String × Option String :=
  (e.name, e.sector, e.region)

/-- Descriptive fields of a cleaned record. -/
def rowDescr (r : CleanRow) : String × Option String × Option String :=
  (r.nome, r.settore, r.area)

/-- Descriptive fields stored in a holdings mapping for one identifier. -/
def descrAt (m : List (String × HoldingEntry)) (x : String) :
    Option (String × Option String × Option String) :=
  (lookupKey x m).map entryDescr

/- ------------------------------------------------------------------ -/
/- Overlap statistic: overlap_pct                                     -/
/- ------------------------------------------------------------------ -/

/-- `len(set(portfolio_holdings.keys()) & set(benchmark_df[ticker_col]))`:
the number of distinct portfolio identifiers that also occur among the
benchmark's identifiers. -/
def overlapCount (m : List (String × HoldingEntry)) (df : CleanDF) : ℕ :=
  (((m.map (·.1)).dedup).filter (fun t => t ∈ df.rows.map (·.ticker))).length

/-- The overlap statistic of the source: intersection count over portfolio
holdings count, times 100; 0 when the portfolio dict is empty. -/
def overlap_pct (m : List (String × HoldingEntry)) (df : CleanDF) : ℚ :=
  if m.isEmpty then 0 else (overlapCount m df : ℚ) / (m.length : ℚ) * 100

/- ------------------------------------------------------------------ -/
/- Concrete inputs used by the counterexamples and witnesses below    -/
/- ------------------------------------------------------------------ -/

/-- An equity row with a 50% weight cell. -/
def rowAAA : RawRow :=
  { ticker := "AAA", nome := "Alpha Corp", ponderazione := some ['5', '0']
    assetClass := "Azionario", settore := some "Tech", area := some "US" }

/-- A well-formed one-row fund file. -/
def tGood : RawTable :=
  { readable := true, hasTicker := true, hasNome := true, hasPond := true
    hasAsset := true, hasSettore := true, hasArea := true, rows := [rowAAA] }

/-- A fund file whose percentage-weight column is missing: its load fails. -/
def tBad : RawTable :=
  { readable := true, hasTicker := true, hasNome := true, hasPond := false
    hasAsset := true, hasSettore := true, hasArea := true, rows := [rowAAA] }

/-- A fund file whose sector column is missing but whose weight and
asset-class columns are present. -/
def tNoSettore : RawTable :=
  { readable := true, hasTicker := true, hasNome := true, hasPond := true
    hasAsset := true, hasSettore := false, hasArea := true, rows := [rowAAA] }

/-- The cleaned form of `rowAAA`. -/
def cleanAAA : CleanRow :=
  { ticker := "AAA", nome := "Alpha Corp", ponderazione := some ['5', '0']
    assetClass := "Azionario", settore := some "Tech", area := some "US"
    weight := clean_percentage (some ['5', '0']) }

/-- What `tGood` loads to. -/
def dfGood : CleanDF :=
  { hasTicker := true, hasNome := true, hasSettore := true, hasArea := true
    rows := [cleanAAA] }

/-- What `tNoSettore` loads to. -/
def dfNoSettore : CleanDF :=
  { hasTicker := true, hasNome := true, hasSettore := false, hasArea := true
    rows := [cleanAAA] }

/-- A loaded fund holding identifier X with one choice of descriptive
fields. -/
def dfX1 : CleanDF :=
  { hasTicker := true, hasNome := true, hasSettore := true, hasArea := true
    rows := [{ ticker := "X", nome := "Alpha", ponderazione := some ['1']
               assetClass := "Azionario", settore := some "Tech", area := some "US"
               weight := 1 }] }

/-- A loaded fund holding the same identifier X with different descriptive
fields. -/
def dfX2 : CleanDF :=
  { hasTicker := true, hasNome := true, hasSettore := true, hasArea := true
    rows := [{ ticker := "X", nome := "Beta", ponderazione := some ['1']
               assetClass := "Azionario", settore := some "Health", area := some "EU"
               weight := 1 }] }

/-- A loaded fund whose single row carries weight 1 but a NaN sector cell:
its weight stays in the holdings but `groupby` drops it from the sector
groups. -/
def dfNaN : CleanDF :=
  { hasTicker := true, hasNome := true, hasSettore := true, hasArea := true
    rows := [{ ticker := "NSC", nome := "NoSector Corp", ponderazione := some ['1']
               assetClass := "Azionario", settore := none, area := some "US"
               weight := 1 }] }

/-- A well-formed fund file whose single percentage cell spells `inf`. -/
def tInf : RawTable :=
  { readable := true, hasTicker := true, hasNome := true, hasPond := true
    hasAsset := true, hasSettore := true, hasArea := true
    rows := [{ ticker := "BBB", nome := "Beta Corp", ponderazione := some ['i', 'n', 'f']
               assetClass := "Azionario", settore := some "Tech", area := some "US" }] }

/- ------------------------------------------------------------------ -/
/- Helper lemmas: the numeric normalizer                              -/
/- ------------------------------------------------------------------ -/

theorem takeDigits_eq_append (l : List Char) :
    l = (takeDigits l).1 ++ (takeDigits l).2 := by
  induction l with
  | nil => rfl
  | cons c t ih =>
    by_cases h : c.isDigit
    · simp only [takeDigits, h, if_true, List.cons_append]
      exact congrArg (c :: ·) ih
    · simp [takeDigits, h]

theorem mem_takeDigits_fst {l : List Char} {c : Char} (h : c ∈ (takeDigits l).1) :
    c.isDigit := by
  induction l with
  | nil => simp [takeDigits] at h
  | cons d t ih =>
    by_cases hd : d.isDigit
    · simp only [takeDigits, hd, if_true] at h
      rcases List.mem_cons.1 h with h | h
      · exact h ▸ hd
      · exact ih h
    · simp [takeDigits, hd] at h

theorem count_takeDigits_fst {l : List Char} {c : Char} (hc : c.isDigit = false) :
    (takeDigits l).1.count c = 0 := by
  rw [List.count_eq_zero]
  intro hmem
  rw [mem_takeDigits_fst hmem] at hc
  simp at hc

theorem count_eq_count_takeDigits_snd {l : List Char} {c : Char}
    (hc : c.isDigit = false) : l.count c = (takeDigits l).2.count c := by
  conv_lhs => rw [takeDigits_eq_append l]
  rw [List.count_append, count_takeDigits_fst hc, Nat.zero_add]

theorem parseMantissa_count_dot {l : List Char} {m : ℚ} {rest : List Char}
    (h : parseMantissa l = some (m, rest)) :
    l.count '.' ≤ rest.count '.' + 1 := by
  have hdot : ('.').isDigit = false := by decide
  unfold parseMantissa at h
  dsimp only at h
  split at h
  case _ r₂ heq =>
    split at h
    · exact absurd h (by simp)
    · have h2 : rest = (takeDigits r₂).2 := by
        simpa using congrArg (fun p => (Option.map Prod.snd p).getD rest) h.symm
      have hl : l.count '.' = r₂.count '.' + 1 := by
        conv_lhs => rw [count_eq_count_takeDigits_snd hdot (l := l)]
        rw [heq]
        simp [List.count_cons]
      rw [hl, h2, count_eq_count_takeDigits_snd hdot (l := r₂)]
  case _ hne =>
    split at h
    · exact absurd h (by simp)
    · have h2 : rest = (takeDigits l).2 := by
        simpa using congrArg (fun p => (Option.map Prod.snd p).getD rest) h.symm
      rw [count_eq_count_takeDigits_snd hdot (l := l), ← h2]
      exact Nat.le_succ _

theorem count_stripSign (l : List Char) {c : Char} (h1 : c ≠ '+') (h2 : c ≠ '-') :
    (stripSign l).2.count c = l.count c := by
  unfold stripSign
  split
  · simp [List.count_cons, Ne.symm h1]
  · simp [List.count_cons, Ne.symm h2]
  · rfl

theorem parseExpNum_count_dot {l : List Char} {e : ℤ}
    (h : parseExpNum l = some e) : l.count '.' = 0 := by
  have hdot : ('.').isDigit = false := by decide
  unfold parseExpNum at h
  dsimp only at h
  split at h
  · exact absurd h (by simp)
  next hcond =>
    have h3 : (takeDigits (stripSign l).2).2 = [] := by
      cases h4 : (takeDigits (stripSign l).2).2 with
      | nil => rfl
      | cons a b => rw [h4] at hcond; simp at hcond
    rw [← count_stripSign l (by decide) (by decide),
      count_eq_count_takeDigits_snd hdot, h3]
    simp

theorem parseFloat_count_dot {l : List Char} {q : ℚ}
    (h : parseFloat l = some q) : l.count '.' ≤ 1 := by
  rw [← count_stripSign l (c := '.') (by decide) (by decide)]
  unfold parseFloat at h
  dsimp only at h
  cases hm : parseMantissa (stripSign l).2 with
  | none => rw [hm] at h; exact absurd h (by simp)
  | some p =>
    obtain ⟨m, rest⟩ := p
    rw [hm] at h
    have hman := parseMantissa_count_dot hm
    cases rest with
    | nil => simpa using hman
    | cons c t =>
      dsimp only at h
      by_cases hce : c = 'e' ∨ c = 'E'
      · rw [if_pos hce] at h
        cases hexp : parseExpNum t with
        | none => rw [hexp] at h; exact absurd h (by simp)
        | some e2 =>
          have ht : t.count '.' = 0 := parseExpNum_count_dot hexp
          have hc : ¬(c = '.') := by
            rcases hce with hce | hce
            · rw [hce]; decide
            · rw [hce]; decide
          rw [List.count_cons, ht] at hman
          simpa [hc] using hman
      · rw [if_neg hce] at h
        exact absurd h (by simp)

theorem count_dot_commaToDot (l : List Char) :
    (commaToDot l).count '.' = l.count ',' + l.count '.' := by
  induction l with
  | nil => rfl
  | cons c t ih =>
    simp only [commaToDot, List.map_cons, List.count_cons] at *
    rw [ih]
    by_cases h1 : c = ','
    · subst h1
      simp +decide [swapComma]
      omega
    · by_cases h2 : c = '.'
      · subst h2
        simp +decide [swapComma]
        omega
      · simp only [swapComma, h1, if_false]
        simp [h1, h2]

theorem count_dropWhile_of_ne {p : Char → Bool} {c : Char}
    (hp : ∀ x, p x = true → x ≠ c) (l : List Char) :
    (l.dropWhile p).count c = l.count c := by
  induction l with
  | nil => rfl
  | cons x t ih =>
    by_cases h : p x
    · rw [List.dropWhile_cons_of_pos h, ih, List.count_cons]
      have : ¬(x = c) := hp x h
      simp [this]
    · rw [List.dropWhile_cons_of_neg h]

theorem count_pyStrip {c : Char} (hc : c.isWhitespace = false) (l : List Char) :
    (pyStrip l).count c = l.count c := by
  have hp : ∀ x : Char, x.isWhitespace = true → x ≠ c := by
    intro x hx hxc
    rw [hxc, hc] at hx
    simp at hx
  unfold pyStrip
  rw [List.count_reverse, count_dropWhile_of_ne hp, List.count_reverse,
    count_dropWhile_of_ne hp]

/-- Any string on which `clean_percentage` is nonzero has at most one comma
and dot in total: the strip keeps every comma and dot, the replace turns
all commas into dots, and a parsed literal holds at most one dot. -/
theorem clean_percentage_ne_zero_count {s : List Char}
    (h : clean_percentage (some s) ≠ 0) :
    s.count ',' + s.count '.' ≤ 1 := by
  unfold clean_percentage at h
  dsimp only at h
  by_cases hnil : s = []
  · rw [if_pos hnil] at h
    exact absurd rfl h
  · rw [if_neg hnil] at h
    cases hp : parseFloat (commaToDot (pyStrip s)) with
    | none => rw [hp] at h; exact absurd rfl h
    | some q =>
      have hd : (commaToDot (pyStrip s)).count '.' ≤ 1 := parseFloat_count_dot hp
      rw [count_dot_commaToDot, count_pyStrip (by decide), count_pyStrip (by decide)] at hd
      exact hd

theorem swapComma_swapComma (c : Char) : swapComma (swapComma c) = swapComma c := by
  by_cases h : c = ','
  · subst h; rfl
  · simp [swapComma, h]

theorem commaToDot_commaToDot (l : List Char) :
    commaToDot (commaToDot l) = commaToDot l := by
  unfold commaToDot
  rw [List.map_map]
  exact List.map_congr_left (fun a _ => swapComma_swapComma a)

theorem isWhitespace_swapComma (c : Char) :
    (swapComma c).isWhitespace = c.isWhitespace := by
  by_cases h : c = ','
  · subst h; rfl
  · simp [swapComma, h]

theorem dropWhile_ws_map_swapComma (l : List Char) :
    (l.map swapComma).dropWhile Char.isWhitespace =
      (l.dropWhile Char.isWhitespace).map swapComma := by
  rw [List.dropWhile_map]
  have hfun : (Char.isWhitespace ∘ swapComma) = Char.isWhitespace := by
    funext c
    exact isWhitespace_swapComma c
  rw [hfun]

theorem pyStrip_commaToDot (l : List Char) :
    pyStrip (commaToDot l) = commaToDot (pyStrip l) := by
  unfold pyStrip commaToDot
  rw [dropWhile_ws_map_swapComma, ← List.map_reverse, dropWhile_ws_map_swapComma,
    ← List.map_reverse]

/-- Writing the string with its commas already replaced by dots parses to
the same value: the normalizer treats the decimal comma and the decimal
dot alike. -/
theorem clean_percentage_commaToDot (s : List Char) :
    clean_percentage (some (commaToDot s)) = clean_percentage (some s) := by
  unfold clean_percentage
  dsimp only
  by_cases h : s = []
  · subst h; rfl
  · have h2 : ¬(commaToDot s = []) := by
      simpa [commaToDot] using h
    rw [if_neg h2, if_neg h, pyStrip_commaToDot, commaToDot_commaToDot]

/- ------------------------------------------------------------------ -/
/- Helper lemmas: the portfolio aggregator                            -/
/- ------------------------------------------------------------------ -/

theorem lookupKey_nil {α : Type} (x : String) : lookupKey x ([] : List (String × α)) = none := rfl

theorem lookupKey_cons {α : Type} (x k : String) (v : α) (m : List (String × α)) :
    lookupKey x ((k, v) :: m) = if x = k then some v else lookupKey x m := rfl

theorem lookupKey_append {α : Type} (x : String) (m₁ m₂ : List (String × α)) :
    lookupKey x (m₁ ++ m₂) = (lookupKey x m₁).or (lookupKey x m₂) := by
  induction m₁ with
  | nil => rfl
  | cons p rest ih =>
    obtain ⟨k, v⟩ := p
    by_cases h : x = k
    · simp [lookupKey_cons, h]
    · simp [lookupKey_cons, h, ih]

theorem lookupKey_dictUpdate (f : HoldingEntry → HoldingEntry) (t : String)
    (m : List (String × HoldingEntry)) (x : String) :
    lookupKey x (dictUpdate f t m) =
      if x = t then (lookupKey t m).map f else lookupKey x m := by
  induction m with
  | nil =>
    simp only [dictUpdate, lookupKey_nil]
    split <;> rfl
  | cons p rest ih =>
    obtain ⟨k, v⟩ := p
    by_cases hkt : k = t
    · subst hkt
      simp only [dictUpdate, if_pos rfl]
      by_cases hxk : x = k
      · simp [lookupKey_cons, hxk]
      · simp [lookupKey_cons, hxk]
    · simp only [dictUpdate, if_neg hkt]
      by_cases hxk : x = k
      · subst hxk
        have hxt : ¬(x = t) := hkt
        simp [lookupKey_cons, hxt]
      · simp only [lookupKey_cons, if_neg hxk, ih]
        by_cases hxt : x = t
        · simp [hxt, Ne.symm hkt]
        · simp [hxt]

theorem weightAt_stepHolding (w : ℚ) (m : List (String × HoldingEntry))
    (r : CleanRow) (x : String) :
    weightAt (stepHolding w m r) x =
      weightAt m x + (if r.ticker = x then r.weight * w / 100 else 0) := by
  unfold stepHolding
  dsimp only
  cases hl : lookupKey r.ticker m with
  | some e =>
    unfold weightAt
    rw [lookupKey_dictUpdate]
    by_cases hx : x = r.ticker
    · subst hx
      rw [if_pos rfl, hl, if_pos rfl]
      simp
    · rw [if_neg hx, if_neg (fun h => hx h.symm), add_zero]
  | none =>
    unfold weightAt
    rw [lookupKey_append]
    by_cases hx : x = r.ticker
    · subst hx
      rw [hl, lookupKey_cons, if_pos rfl, if_pos rfl]
      simp
    · rw [lookupKey_cons, if_neg hx, if_neg (fun h => hx h.symm), add_zero]
      cases lookupKey x m <;> simp [lookupKey_nil]

theorem rowsWeightFor_nil (x : String) : rowsWeightFor [] x = 0 := rfl

theorem rowsWeightFor_cons (r : CleanRow) (rows : List CleanRow) (x : String) :
    rowsWeightFor (r :: rows) x =
      (if r.ticker = x then r.weight else 0) + rowsWeightFor rows x := by
  unfold rowsWeightFor
  rw [List.filter_cons]
  by_cases h : r.ticker = x
  · simp [h]
  · simp [h]

theorem weightAt_foldl_rows (w : ℚ) (rows : List CleanRow)
    (m : List (String × HoldingEntry)) (x : String) :
    weightAt (rows.foldl (stepHolding w) m) x =
      weightAt m x + rowsWeightFor rows x * w / 100 := by
  induction rows generalizing m with
  | nil =>
    rw [rowsWeightFor_nil]
    simp
  | cons r rest ih =>
    rw [List.foldl_cons, ih, weightAt_stepHolding, rowsWeightFor_cons,
      add_mul, add_div, add_assoc]
    by_cases h : r.ticker = x
    · rw [if_pos h, if_pos h]
    · rw [if_neg h, if_neg h]
      simp

theorem holdingsWeight_aggregateFund (st : AggState) (df : CleanDF) (w : ℚ)
    (x : String) :
    holdingsWeight (aggregateFund st df w) x =
      holdingsWeight st x + fundWeightFor df x * w / 100 := by
  unfold holdingsWeight aggregateFund fundWeightFor
  exact weightAt_foldl_rows w df.rows st.holdings x

theorem holdingsWeight_foldl_funds (fs : List (CleanDF × ℚ)) (st : AggState)
    (x : String) :
    holdingsWeight (fs.foldl (fun st p => aggregateFund st p.1 p.2) st) x =
      holdingsWeight st x + weightedSum fs x := by
  induction fs generalizing st with
  | nil =>
    unfold weightedSum
    simp
  | cons p rest ih =>
    rw [List.foldl_cons, ih, holdingsWeight_aggregateFund]
    unfold weightedSum
    rw [List.map_cons, List.sum_cons, add_assoc]

theorem holdingsWeight_aggregateLoaded (fs : List (CleanDF × ℚ)) (x : String) :
    holdingsWeight (aggregateLoaded fs) x = weightedSum fs x := by
  unfold aggregateLoaded
  rw [holdingsWeight_foldl_funds]
  unfold holdingsWeight weightAt
  rw [lookupKey_nil]
  simp

theorem descrAt_stepHolding (w : ℚ) (m : List (String × HoldingEntry))
    (r : CleanRow) (x : String) :
    descrAt (stepHolding w m r) x =
      (descrAt m x).or (if r.ticker = x then some (rowDescr r) else none) := by
  unfold stepHolding
  dsimp only
  cases hl : lookupKey r.ticker m with
  | some e =>
    unfold descrAt
    rw [lookupKey_dictUpdate]
    by_cases hx : x = r.ticker
    · subst hx
      rw [if_pos rfl, hl, if_pos rfl]
      simp [entryDescr]
    · rw [if_neg hx, if_neg (fun h => hx h.symm)]
      cases lookupKey x m <;> simp
  | none =>
    unfold descrAt
    rw [lookupKey_append]
    by_cases hx : x = r.ticker
    · subst hx
      rw [hl, lookupKey_cons, if_pos rfl, if_pos rfl]
      simp [entryDescr, rowDescr]
    · rw [lookupKey_cons, if_neg hx, if_neg (fun h => hx h.symm), lookupKey_nil]
      cases lookupKey x m <;> simp

theorem descrAt_foldl_rows (w : ℚ) (rows : List CleanRow)
    (m : List (String × HoldingEntry)) (x : String) :
    descrAt (rows.foldl (stepHolding w) m) x =
      (descrAt m x).or ((rows.find? (fun r => r.ticker = x)).map rowDescr) := by
  induction rows generalizing m with
  | nil => simp
  | cons r rest ih =>
    rw [List.foldl_cons, ih, descrAt_stepHolding, Option.or_assoc]
    congr 1
    rw [List.find?_cons]
    by_cases h : r.ticker = x
    · simp [h]
    · simp [h]

theorem descrAt_aggregateFund (st : AggState) (df : CleanDF) (w : ℚ)
    (x : String) :
    descrAt (aggregateFund st df w).holdings x =
      (descrAt st.holdings x).or
        ((df.rows.find? (fun r => r.ticker = x)).map rowDescr) := by
  unfold aggregateFund
  exact descrAt_foldl_rows w df.rows st.holdings x

theorem descrAt_foldl_funds (fs : List (CleanDF × ℚ)) (st : AggState)
    (x : String) :
    descrAt (fs.foldl (fun st p => aggregateFund st p.1 p.2) st).holdings x =
      (descrAt st.holdings x).or ((firstRecordWith fs x).map rowDescr) := by
  induction fs generalizing st with
  | nil =>
    unfold firstRecordWith
    simp
  | cons p rest ih =>
    rw [List.foldl_cons, ih, descrAt_aggregateFund, Option.or_assoc]
    congr 1
    unfold firstRecordWith
    rw [List.flatMap_cons, List.find?_append]
    cases List.find? (fun r => r.ticker = x) p.1.rows <;> simp

theorem descrAt_aggregateLoaded (fs : List (CleanDF × ℚ)) (x : String) :
    descrAt (aggregateLoaded fs).holdings x =
      (firstRecordWith fs x).map rowDescr := by
  unfold aggregateLoaded
  rw [descrAt_foldl_funds]
  unfold descrAt
  rw [lookupKey_nil]
  simp

theorem lookupOr0_bumpKey (k : String) (c : ℚ) (m : List (String × ℚ))
    (x : String) :
    lookupOr0 (bumpKey k c m) x = lookupOr0 m x + (if k = x then c else 0) := by
  induction m with
  | nil =>
    by_cases h : x = k
    · subst h
      simp [bumpKey, lookupOr0, lookupKey_cons, lookupKey_nil]
    · have hkx : ¬(k = x) := fun h2 => h h2.symm
      simp [bumpKey, lookupOr0, lookupKey_cons, lookupKey_nil, h, hkx]
  | cons p rest ih =>
    obtain ⟨a, v⟩ := p
    by_cases hak : a = k
    · subst hak
      by_cases hxa : x = a
      · subst hxa
        simp [bumpKey, lookupOr0, lookupKey_cons]
      · have hax : ¬(a = x) := fun h2 => hxa h2.symm
        simp [bumpKey, lookupOr0, lookupKey_cons, hxa, hax]
    · by_cases hxa : x = a
      · subst hxa
        have hkx : ¬(k = x) := fun h2 => hak (h2.symm)
        simp [bumpKey, lookupOr0, lookupKey_cons, hak, hkx]
      · have step1 : bumpKey k c ((a, v) :: rest) = (a, v) :: bumpKey k c rest := by
          simp only [bumpKey]
          rw [if_neg hak]
        rw [step1]
        have step2 : lookupOr0 ((a, v) :: bumpKey k c rest) x =
            lookupOr0 (bumpKey k c rest) x := by
          unfold lookupOr0
          rw [lookupKey_cons, if_neg hxa]
        have step3 : lookupOr0 ((a, v) :: rest) x = lookupOr0 rest x := by
          unfold lookupOr0
          rw [lookupKey_cons, if_neg hxa]
        rw [step2, step3, ih]

theorem lookupOr0_bumpFold (g : String → ℚ) (ks : List String)
    (hnd : ks.Nodup) (m : List (String × ℚ)) (x : String) :
    lookupOr0 (ks.foldl (fun m s => bumpKey s (g s) m) m) x =
      lookupOr0 m x + (if x ∈ ks then g x else 0) := by
  induction ks generalizing m with
  | nil => simp
  | cons s ks ih =>
    have hnotin : s ∉ ks := (List.nodup_cons.1 hnd).1
    rw [List.foldl_cons, ih (List.nodup_cons.1 hnd).2, lookupOr0_bumpKey]
    by_cases hxs : x = s
    · subst hxs
      rw [if_pos rfl, if_neg hnotin, if_pos (List.mem_cons_self x ks)]
      ring
    · rw [if_neg (fun h2 => hxs h2.symm), add_zero]
      by_cases hin : x ∈ ks
      · rw [if_pos hin, if_pos (List.mem_cons_of_mem s hin)]
      · rw [if_neg hin, if_neg (by simp [hxs, hin])]

theorem groupSum_nil (key : CleanRow → Option String) (s : String) :
    groupSum key [] s = 0 := rfl

theorem groupSum_cons (key : CleanRow → Option String) (r : CleanRow)
    (rows : List CleanRow) (s : String) :
    groupSum key (r :: rows) s =
      (if key r = some s then r.weight else 0) + groupSum key rows s := by
  unfold groupSum
  rw [List.filter_cons]
  by_cases h : key r = some s
  · simp [h]
  · simp [h]

theorem groupSum_eq_zero_of_not_mem (key : CleanRow → Option String)
    (rows : List CleanRow) (s : String) (h : s ∉ groupKeys key rows) :
    groupSum key rows s = 0 := by
  unfold groupKeys at h
  rw [List.mem_dedup] at h
  unfold groupSum
  have hfil : rows.filter (fun r => key r = some s) = [] := by
    rw [List.filter_eq_nil_iff]
    intro r hr
    simp only [decide_eq_true_eq]
    intro hks
    exact h (List.mem_filterMap.2 ⟨r, hr, hks⟩)
  rw [hfil]
  rfl

theorem lookupOr0_groupFold (key : CleanRow → Option String) (rows : List CleanRow)
    (w : ℚ) (m : List (String × ℚ)) (s : String) :
    lookupOr0 ((groupKeys key rows).foldl
        (fun m t => bumpKey t (groupSum key rows t * w / 100) m) m) s =
      lookupOr0 m s + groupSum key rows s * w / 100 := by
  have hnd : (groupKeys key rows).Nodup := by
    unfold groupKeys
    exact List.nodup_dedup _
  rw [lookupOr0_bumpFold _ _ hnd m s]
  by_cases h : s ∈ groupKeys key rows
  · rw [if_pos h]
  · rw [if_neg h, groupSum_eq_zero_of_not_mem key rows s h]
    simp

theorem sectors_aggregateFund (st : AggState) (df : CleanDF) (w : ℚ)
    (s : String) :
    lookupOr0 (aggregateFund st df w).sectors s =
      lookupOr0 st.sectors s + groupSum (fun r => r.settore) df.rows s * w / 100 := by
  unfold aggregateFund
  exact lookupOr0_groupFold _ df.rows w st.sectors s

theorem regions_aggregateFund (st : AggState) (df : CleanDF) (w : ℚ)
    (s : String) :
    lookupOr0 (aggregateFund st df w).regions s =
      lookupOr0 st.regions s + groupSum (fun r => r.area) df.rows s * w / 100 := by
  unfold aggregateFund
  exact lookupOr0_groupFold _ df.rows w st.regions s

theorem sectors_foldl_funds (fs : List (CleanDF × ℚ)) (st : AggState)
    (s : String) :
    lookupOr0 (fs.foldl (fun st p => aggregateFund st p.1 p.2) st).sectors s =
      lookupOr0 st.sectors s + sectorSumList fs s := by
  induction fs generalizing st with
  | nil =>
    unfold sectorSumList
    simp
  | cons p rest ih =>
    rw [List.foldl_cons, ih, sectors_aggregateFund]
    unfold sectorSumList
    rw [List.map_cons, List.sum_cons, add_assoc]

theorem regions_foldl_funds (fs : List (CleanDF × ℚ)) (st : AggState)
    (s : String) :
    lookupOr0 (fs.foldl (fun st p => aggregateFund st p.1 p.2) st).regions s =
      lookupOr0 st.regions s + regionSumList fs s := by
  induction fs generalizing st with
  | nil =>
    unfold regionSumList
    simp
  | cons p rest ih =>
    rw [List.foldl_cons, ih, regions_aggregateFund]
    unfold regionSumList
    rw [List.map_cons, List.sum_cons, add_assoc]

theorem sectors_aggregateLoaded (fs : List (CleanDF × ℚ)) (s : String) :
    lookupOr0 (aggregateLoaded fs).sectors s = sectorSumList fs s := by
  unfold aggregateLoaded
  rw [sectors_foldl_funds]
  unfold lookupOr0
  rw [lookupKey_nil]
  simp

theorem regions_aggregateLoaded (fs : List (CleanDF × ℚ)) (s : String) :
    lookupOr0 (aggregateLoaded fs).regions s = regionSumList fs s := by
  unfold aggregateLoaded
  rw [regions_foldl_funds]
  unfold lookupOr0
  rw [lookupKey_nil]
  simp

/- Mass-conservation lemmas. -/

theorem totalHold_cons (k : String) (e : HoldingEntry)
    (m : List (String × HoldingEntry)) :
    totalHold ((k, e) :: m) = e.weight + totalHold m := by
  unfold totalHold
  simp

theorem totalHold_dictUpdate (c : ℚ) (t : String)
    (m : List (String × HoldingEntry)) (h : (lookupKey t m).isSome = true) :
    totalHold (dictUpdate (fun e => { e with weight := e.weight + c }) t m) =
      totalHold m + c := by
  induction m with
  | nil => simp [lookupKey_nil] at h
  | cons p rest ih =>
    obtain ⟨k, v⟩ := p
    by_cases hkt : k = t
    · subst hkt
      have hstep : dictUpdate (fun e => { e with weight := e.weight + c }) k
          ((k, v) :: rest) = (k, { v with weight := v.weight + c }) :: rest := by
        simp [dictUpdate]
      rw [hstep, totalHold_cons, totalHold_cons]
      dsimp only
      ring
    · have hstep : dictUpdate (fun e => { e with weight := e.weight + c }) t
          ((k, v) :: rest) =
          (k, v) :: dictUpdate (fun e => { e with weight := e.weight + c }) t rest := by
        simp [dictUpdate, hkt]
      rw [hstep, totalHold_cons, totalHold_cons]
      have h2 : (lookupKey t rest).isSome = true := by
        rw [lookupKey_cons, if_neg (fun hh => hkt hh.symm)] at h
        exact h
      rw [ih h2]
      ring

theorem totalHold_append_single (m : List (String × HoldingEntry))
    (t : String) (e : HoldingEntry) :
    totalHold (m ++ [(t, e)]) = totalHold m + e.weight := by
  unfold totalHold
  rw [List.map_append, List.sum_append]
  simp

theorem totalHold_stepHolding (w : ℚ) (m : List (String × HoldingEntry))
    (r : CleanRow) :
    totalHold (stepHolding w m r) = totalHold m + r.weight * w / 100 := by
  unfold stepHolding
  dsimp only
  cases hl : lookupKey r.ticker m with
  | some e =>
    exact totalHold_dictUpdate _ _ _ (by rw [hl]; rfl)
  | none =>
    rw [totalHold_append_single]

theorem rowsTotal_cons (r : CleanRow) (rows : List CleanRow) :
    rowsTotal (r :: rows) = r.weight + rowsTotal rows := by
  unfold rowsTotal
  simp

theorem totalHold_foldl_rows (w : ℚ) (rows : List CleanRow)
    (m : List (String × HoldingEntry)) :
    totalHold (rows.foldl (stepHolding w) m) =
      totalHold m + rowsTotal rows * w / 100 := by
  induction rows generalizing m with
  | nil =>
    rw [show rowsTotal [] = 0 from rfl]
    simp
  | cons r rest ih =>
    rw [List.foldl_cons, ih, totalHold_stepHolding, rowsTotal_cons,
      add_mul, add_div, add_assoc]

theorem totalVals_bumpKey (k : String) (c : ℚ) (m : List (String × ℚ)) :
    totalVals (bumpKey k c m) = totalVals m + c := by
  induction m with
  | nil => simp [bumpKey, totalVals]
  | cons p rest ih =>
    obtain ⟨a, v⟩ := p
    by_cases hak : a = k
    · subst hak
      simp only [bumpKey, if_pos rfl]
      unfold totalVals
      simp
      ring
    · simp only [bumpKey, if_neg hak]
      unfold totalVals at *
      simp only [List.map_cons, List.sum_cons] at *
      rw [ih]
      ring

theorem totalVals_bumpFold (g : String → ℚ) (ks : List String)
    (m : List (String × ℚ)) :
    totalVals (ks.foldl (fun m s => bumpKey s (g s) m) m) =
      totalVals m + (ks.map g).sum := by
  induction ks generalizing m with
  | nil => simp
  | cons s ks ih =>
    rw [List.foldl_cons, ih, totalVals_bumpKey, List.map_cons, List.sum_cons]
    ring

theorem sum_map_ite_single {ks : List String} (hnd : ks.Nodup) {t : String}
    (ht : t ∈ ks) (c : ℚ) :
    (ks.map (fun s => if t = s then c else 0)).sum = c := by
  induction ks with
  | nil => cases ht
  | cons s ks ih =>
    rw [List.map_cons, List.sum_cons]
    by_cases hts : t = s
    · subst hts
      rw [if_pos rfl]
      have hnot : t ∉ ks := (List.nodup_cons.1 hnd).1
      have hz : (ks.map (fun s => if t = s then c else 0)).sum = 0 := by
        apply List.sum_eq_zero
        intro x hx
        rcases List.mem_map.1 hx with ⟨s2, hs2, rfl⟩
        rw [if_neg (fun h => hnot (by rw [h]; exact hs2))]
      rw [hz, add_zero]
    · rw [if_neg hts, zero_add]
      have ht2 : t ∈ ks := by
        rcases List.mem_cons.1 ht with h | h
        · exact absurd h hts
        · exact h
      exact ih (List.nodup_cons.1 hnd).2 ht2

theorem sum_map_add_q (ks : List String) (f g : String → ℚ) :
    (ks.map (fun s => f s + g s)).sum = (ks.map f).sum + (ks.map g).sum := by
  induction ks with
  | nil => simp
  | cons s ks ih =>
    simp only [List.map_cons, List.sum_cons, ih]
    ring

theorem labelledTotal_nil (key : CleanRow → Option String) :
    labelledTotal key [] = 0 := rfl

theorem labelledTotal_cons (key : CleanRow → Option String) (r : CleanRow)
    (rows : List CleanRow) :
    labelledTotal key (r :: rows) =
      (if (key r).isSome then r.weight else 0) + labelledTotal key rows := by
  unfold labelledTotal
  rw [List.filter_cons]
  by_cases h : (key r).isSome
  · simp [h]
  · simp [h]

theorem groupSum_partition (key : CleanRow → Option String)
    (rows : List CleanRow) (ks : List String) (hnd : ks.Nodup)
    (hcov : ∀ r ∈ rows, ∀ t, key r = some t → t ∈ ks) :
    (ks.map (fun s => groupSum key rows s)).sum = labelledTotal key rows := by
  induction rows with
  | nil =>
    rw [labelledTotal_nil]
    apply List.sum_eq_zero
    intro x hx
    rcases List.mem_map.1 hx with ⟨s, hs, rfl⟩
    rfl
  | cons r rest ih =>
    have hcov2 : ∀ r2 ∈ rest, ∀ t, key r2 = some t → t ∈ ks :=
      fun r2 h => hcov r2 (List.mem_cons_of_mem r h)
    have hcong : (ks.map (fun s => groupSum key (r :: rest) s)).sum =
        (ks.map (fun s =>
          (if key r = some s then r.weight else 0) + groupSum key rest s)).sum := by
      congr 1
      exact List.map_congr_left (fun s _ => groupSum_cons key r rest s)
    rw [hcong, sum_map_add_q, ih hcov2, labelledTotal_cons]
    congr 1
    cases hk : key r with
    | none =>
      rw [show Option.isSome (none : Option String) = false from rfl, if_neg (by simp)]
      apply List.sum_eq_zero
      intro x hx
      rcases List.mem_map.1 hx with ⟨s, hs, rfl⟩
      rw [if_neg (by simp [hk])]
    | some t =>
      rw [show Option.isSome (some t) = true from rfl, if_pos rfl]
      have hcong2 : (ks.map (fun s => if some t = some s then r.weight else 0)) =
          (ks.map (fun s => if t = s then r.weight else 0)) := by
        apply List.map_congr_left
        intro s _
        by_cases hts : t = s
        · rw [if_pos (by rw [hts]), if_pos hts]
        · rw [if_neg (by simp [hts]), if_neg hts]
      rw [hcong2,
        sum_map_ite_single hnd (hcov r (List.mem_cons_self r rest) t hk) r.weight]

theorem groupKeys_nodup (key : CleanRow → Option String) (rows : List CleanRow) :
    (groupKeys key rows).Nodup := by
  unfold groupKeys
  exact List.nodup_dedup _

theorem groupKeys_cover (key : CleanRow → Option String) (rows : List CleanRow) :
    ∀ r ∈ rows, ∀ t, key r = some t → t ∈ groupKeys key rows := by
  intro r hr t ht
  unfold groupKeys
  rw [List.mem_dedup]
  exact List.mem_filterMap.2 ⟨r, hr, ht⟩

theorem groupKeys_weighted_sum (key : CleanRow → Option String)
    (rows : List CleanRow) (w : ℚ) :
    ((groupKeys key rows).map (fun s => groupSum key rows s * w / 100)).sum =
      labelledTotal key rows * w / 100 := by
  have h1 : ((groupKeys key rows).map (fun s => groupSum key rows s * w / 100)).sum =
      ((groupKeys key rows).map (fun s => groupSum key rows s * (w / 100))).sum := by
    congr 1
    exact List.map_congr_left (fun s _ => by rw [mul_div_assoc])
  rw [h1, List.sum_map_mul_right,
    groupSum_partition key rows _ (groupKeys_nodup key rows) (groupKeys_cover key rows),
    mul_div_assoc]

theorem totalHold_aggregateFund (st : AggState) (df : CleanDF) (w : ℚ) :
    totalHold (aggregateFund st df w).holdings =
      totalHold st.holdings + rowsTotal df.rows * w / 100 := by
  unfold aggregateFund
  exact totalHold_foldl_rows w df.rows st.holdings

theorem sectorsTotal_aggregateFund (st : AggState) (df : CleanDF) (w : ℚ) :
    totalVals (aggregateFund st df w).sectors =
      totalVals st.sectors + labelledTotal (fun r => r.settore) df.rows * w / 100 := by
  unfold aggregateFund
  dsimp only
  rw [totalVals_bumpFold, groupKeys_weighted_sum]

theorem regionsTotal_aggregateFund (st : AggState) (df : CleanDF) (w : ℚ) :
    totalVals (aggregateFund st df w).regions =
      totalVals st.regions + labelledTotal (fun r => r.area) df.rows * w / 100 := by
  unfold aggregateFund
  dsimp only
  rw [totalVals_bumpFold, groupKeys_weighted_sum]

theorem massOf_cons (p : CleanDF × ℚ) (fs : List (CleanDF × ℚ)) :
    massOf (p :: fs) = rowsTotal p.1.rows * p.2 / 100 + massOf fs := by
  unfold massOf
  simp

theorem sectorMassOf_cons (p : CleanDF × ℚ) (fs : List (CleanDF × ℚ)) :
    sectorMassOf (p :: fs) =
      labelledTotal (fun r => r.settore) p.1.rows * p.2 / 100 + sectorMassOf fs := by
  unfold sectorMassOf
  simp

theorem regionMassOf_cons (p : CleanDF × ℚ) (fs : List (CleanDF × ℚ)) :
    regionMassOf (p :: fs) =
      labelledTotal (fun r => r.area) p.1.rows * p.2 / 100 + regionMassOf fs := by
  unfold regionMassOf
  simp

theorem totals_foldl_funds (fs : List (CleanDF × ℚ)) (st : AggState) :
    totalHold (fs.foldl (fun st p => aggregateFund st p.1 p.2) st).holdings =
      totalHold st.holdings + massOf fs ∧
    totalVals (fs.foldl (fun st p => aggregateFund st p.1 p.2) st).sectors =
      totalVals st.sectors + sectorMassOf fs ∧
    totalVals (fs.foldl (fun st p => aggregateFund st p.1 p.2) st).regions =
      totalVals st.regions + regionMassOf fs := by
  induction fs generalizing st with
  | nil =>
    refine ⟨?_, ?_, ?_⟩ <;> simp [massOf, sectorMassOf, regionMassOf]
  | cons p rest ih =>
    obtain ⟨ih1, ih2, ih3⟩ := ih (aggregateFund st p.1 p.2)
    rw [List.foldl_cons]
    refine ⟨?_, ?_, ?_⟩
    · rw [ih1, totalHold_aggregateFund, massOf_cons]
      ring
    · rw [ih2, sectorsTotal_aggregateFund, sectorMassOf_cons]
      ring
    · rw [ih3, regionsTotal_aggregateFund, regionMassOf_cons]
      ring

theorem totalHold_nil : totalHold [] = 0 := rfl

theorem totalVals_nil : totalVals [] = 0 := rfl

theorem totals_aggregateLoaded (fs : List (CleanDF × ℚ)) :
    totalHold (aggregateLoaded fs).holdings = massOf fs ∧
    totalVals (aggregateLoaded fs).sectors = sectorMassOf fs ∧
    totalVals (aggregateLoaded fs).regions = regionMassOf fs := by
  obtain ⟨h1, h2, h3⟩ := totals_foldl_funds fs ⟨[], [], []⟩
  unfold aggregateLoaded
  refine ⟨?_, ?_, ?_⟩
  · rw [h1, show totalHold (AggState.mk [] [] []).holdings = 0 from rfl, zero_add]
  · rw [h2, show totalVals (AggState.mk [] [] []).sectors = 0 from rfl, zero_add]
  · rw [h3, show totalVals (AggState.mk [] [] []).regions = 0 from rfl, zero_add]

theorem labelledTotal_eq_rowsTotal (key : CleanRow → Option String)
    {rows : List CleanRow} (h : ∀ r ∈ rows, (key r).isSome = true) :
    labelledTotal key rows = rowsTotal rows := by
  unfold labelledTotal rowsTotal
  congr 1
  rw [List.filter_eq_self.2]
  intro r hr
  simpa using h r hr

theorem sectorMassOf_eq_massOf {fs : List (CleanDF × ℚ)}
    (h : ∀ p ∈ fs, ∀ r ∈ p.1.rows, (r.settore).isSome = true) :
    sectorMassOf fs = massOf fs := by
  unfold sectorMassOf massOf
  congr 1
  apply List.map_congr_left
  intro p hp
  rw [labelledTotal_eq_rowsTotal _ (h p hp)]

theorem regionMassOf_eq_massOf {fs : List (CleanDF × ℚ)}
    (h : ∀ p ∈ fs, ∀ r ∈ p.1.rows, (r.area).isSome = true) :
    regionMassOf fs = massOf fs := by
  unfold regionMassOf massOf
  congr 1
  apply List.map_congr_left
  intro p hp
  rw [labelledTotal_eq_rowsTotal _ (h p hp)]

/- ------------------------------------------------------------------ -/
/- Helper lemmas: loader failures and skipping                        -/
/- ------------------------------------------------------------------ -/

theorem aggregateAux_skip (ps₁ ps₂ : List (RawTable × ℚ)) (bad : RawTable)
    (w : ℚ) (hbad : load_and_clean_data bad = none) (st : AggState) :
    aggregateAux (ps₁ ++ (bad, w) :: ps₂) st = aggregateAux (ps₁ ++ ps₂) st := by
  induction ps₁ generalizing st with
  | nil =>
    rw [List.nil_append, List.nil_append]
    simp only [aggregateAux, hbad]
  | cons p rest ih =>
    obtain ⟨f, wf⟩ := p
    rw [List.cons_append, List.cons_append]
    simp only [aggregateAux]
    cases hld : load_and_clean_data f with
    | none =>
      dsimp only
      exact ih st
    | some df =>
      dsimp only
      by_cases hok : fundColsOk df = true
      · rw [if_pos hok, if_pos hok]
        exact ih _
      · rw [if_neg hok, if_neg hok]

theorem aggregate_portfolio_data_skip (files₁ files₂ : List RawTable)
    (ws₁ ws₂ : List ℚ) (bad : RawTable) (w : ℚ)
    (hlen : files₁.length = ws₁.length)
    (hbad : load_and_clean_data bad = none) :
    aggregate_portfolio_data (files₁ ++ bad :: files₂) (ws₁ ++ w :: ws₂) =
      aggregate_portfolio_data (files₁ ++ files₂) (ws₁ ++ ws₂) := by
  unfold aggregate_portfolio_data
  rw [List.zip_append hlen, List.zip_append hlen, List.zip_cons_cons]
  exact aggregateAux_skip _ _ _ _ hbad _

theorem load_isSome_iff (t : RawTable) :
    (load_and_clean_data t).isSome = (t.readable && t.hasPond && t.hasAsset) := by
  unfold load_and_clean_data
  by_cases h : (t.readable && t.hasPond && t.hasAsset) = true
  · rw [if_pos h, h]
    rfl
  · rw [if_neg h]
    have h2 : (t.readable && t.hasPond && t.hasAsset) = false :=
      Bool.eq_false_iff.2 h
    rw [h2]
    rfl

theorem aggregate_single_missing_col (t : RawTable) (w : ℚ) (df : CleanDF)
    (hld : load_and_clean_data t = some df) (hok : fundColsOk df = false) :
    aggregate_portfolio_data [t] [w] = none := by
  unfold aggregate_portfolio_data
  show aggregateAux [(t, w)] ⟨[], [], []⟩ = none
  simp only [aggregateAux, hld]
  rw [hok]
  rfl

theorem load_rows_pos (t : RawTable) (df : CleanDF)
    (h : load_and_clean_data t = some df) : ∀ r ∈ df.rows, 0 < r.weight := by
  unfold load_and_clean_data at h
  by_cases hcond : (t.readable && t.hasPond && t.hasAsset) = true
  · rw [if_pos hcond] at h
    have heq := Option.some.inj h
    subst heq
    intro r hr
    dsimp only at hr
    have hkeep := List.of_mem_filter hr
    unfold keepRow at hkeep
    simp only [Bool.and_eq_true, decide_eq_true_eq] at hkeep
    exact hkeep.2
  · rw [if_neg hcond] at h
    exact absurd h (by simp)

theorem loadedWeights_ieee_mem {t : RawTable} {ws : List PyFloat}
    (h : loadedWeights_ieee t = some ws) : ∀ x ∈ ws, x.gtZero = true := by
  unfold loadedWeights_ieee at h
  by_cases hcond : (t.readable && t.hasPond && t.hasAsset) = true
  · rw [if_pos hcond] at h
    have heq := Option.some.inj h
    subst heq
    intro x hx
    rcases List.mem_map.1 hx with ⟨p, hp, rfl⟩
    have hkeep := List.of_mem_filter hp
    simp only [Bool.and_eq_true] at hkeep
    exact hkeep.2
  · rw [if_neg hcond] at h
    exact absurd h (by simp)

theorem gtZero_finite_or_inf {x : PyFloat} (h : x.gtZero = true) :
    x.isFinite = true ∨ x = PyFloat.inf := by
  cases x with
  | fin q => exact Or.inl rfl
  | inf => exact Or.inr rfl
  | ninf => exact absurd h (by simp [PyFloat.gtZero])
  | nan => exact absurd h (by simp [PyFloat.gtZero])

theorem clean_percentage_ieee_agrees (s : List Char)
    (h1 : isInfSpelling (stripSign (commaToDot (pyStrip s))).2 = false)
    (h2 : isNanSpelling (stripSign (commaToDot (pyStrip s))).2 = false) :
    clean_percentage_ieee (some s) = PyFloat.fin (clean_percentage (some s)) := by
  unfold clean_percentage_ieee clean_percentage
  dsimp only
  by_cases hs : s = []
  · rw [if_pos hs, if_pos hs]
  · rw [if_neg hs, if_neg hs]
    unfold pyFloatOfChars
    dsimp only
    rw [h1, h2]
    simp only [Bool.false_eq_true, if_false]
    cases hp : parseFloat (commaToDot (pyStrip s)) with
    | none => rfl
    | some q => rfl

/- ------------------------------------------------------------------ -/
/- Helper lemmas: nonnegativity of aggregated weights                 -/
/- ------------------------------------------------------------------ -/

theorem mem_dictUpdate {f : HoldingEntry → HoldingEntry} {t : String}
    {m : List (String × HoldingEntry)} {p : String × HoldingEntry}
    (hp : p ∈ dictUpdate f t m) : p ∈ m ∨ ∃ q, q ∈ m ∧ p = (q.1, f q.2) := by
  induction m with
  | nil => simp [dictUpdate] at hp
  | cons a rest ih =>
    obtain ⟨k, v⟩ := a
    by_cases hkt : k = t
    · rw [show dictUpdate f t ((k, v) :: rest) = (k, f v) :: rest from by
        simp [dictUpdate, hkt]] at hp
      rcases List.mem_cons.1 hp with h | h
      · exact Or.inr ⟨(k, v), List.mem_cons_self _ _, h⟩
      · exact Or.inl (List.mem_cons_of_mem _ h)
    · rw [show dictUpdate f t ((k, v) :: rest) = (k, v) :: dictUpdate f t rest from by
        simp [dictUpdate, hkt]] at hp
      rcases List.mem_cons.1 hp with h | h
      · exact Or.inl (h ▸ List.mem_cons_self _ _)
      · rcases ih h with h2 | ⟨q, hq, rfl⟩
        · exact Or.inl (List.mem_cons_of_mem _ h2)
        · exact Or.inr ⟨q, List.mem_cons_of_mem _ hq, rfl⟩

theorem stepHolding_nonneg {w : ℚ} {m : List (String × HoldingEntry)}
    {r : CleanRow} (hm : ∀ p ∈ m, 0 ≤ p.2.weight)
    (hc : 0 ≤ r.weight * w / 100) :
    ∀ p ∈ stepHolding w m r, 0 ≤ p.2.weight := by
  unfold stepHolding
  dsimp only
  cases hl : lookupKey r.ticker m with
  | some e =>
    intro p hp
    rcases mem_dictUpdate hp with h | ⟨q, hq, rfl⟩
    · exact hm p h
    · exact add_nonneg (hm q hq) hc
  | none =>
    intro p hp
    rcases List.mem_append.1 hp with h | h
    · exact hm p h
    · rw [List.mem_singleton.1 h]
      exact hc

theorem foldl_rows_nonneg {w : ℚ} {rows : List CleanRow}
    {m : List (String × HoldingEntry)} (hw : 0 ≤ w)
    (hrows : ∀ r ∈ rows, 0 ≤ r.weight) (hm : ∀ p ∈ m, 0 ≤ p.2.weight) :
    ∀ p ∈ rows.foldl (stepHolding w) m, 0 ≤ p.2.weight := by
  induction rows generalizing m with
  | nil => exact hm
  | cons r rest ih =>
    rw [List.foldl_cons]
    have hc : 0 ≤ r.weight * w / 100 :=
      div_nonneg (mul_nonneg (hrows r (List.mem_cons_self r rest)) hw) (by norm_num)
    exact ih (fun r2 h2 => hrows r2 (List.mem_cons_of_mem r h2))
      (stepHolding_nonneg hm hc)

theorem mem_bumpKey {k : String} {c : ℚ} {m : List (String × ℚ)}
    {p : String × ℚ} (hp : p ∈ bumpKey k c m) :
    p ∈ m ∨ p = (k, c) ∨ ∃ q, q ∈ m ∧ p = (q.1, q.2 + c) := by
  induction m with
  | nil =>
    simp only [bumpKey, List.mem_singleton] at hp
    exact Or.inr (Or.inl hp)
  | cons a rest ih =>
    obtain ⟨a1, v⟩ := a
    by_cases hak : a1 = k
    · rw [show bumpKey k c ((a1, v) :: rest) = (a1, v + c) :: rest from by
        simp [bumpKey, hak]] at hp
      rcases List.mem_cons.1 hp with h | h
      · exact Or.inr (Or.inr ⟨(a1, v), List.mem_cons_self _ _, h⟩)
      · exact Or.inl (List.mem_cons_of_mem _ h)
    · rw [show bumpKey k c ((a1, v) :: rest) = (a1, v) :: bumpKey k c rest from by
        simp [bumpKey, hak]] at hp
      rcases List.mem_cons.1 hp with h | h
      · exact Or.inl (h ▸ List.mem_cons_self _ _)
      · rcases ih h with h2 | h2 | ⟨q, hq, rfl⟩
        · exact Or.inl (List.mem_cons_of_mem _ h2)
        · exact Or.inr (Or.inl h2)
        · exact Or.inr (Or.inr ⟨q, List.mem_cons_of_mem _ hq, rfl⟩)

theorem groupSum_nonneg (key : CleanRow → Option String) {rows : List CleanRow}
    (h : ∀ r ∈ rows, 0 ≤ r.weight) (s : String) : 0 ≤ groupSum key rows s := by
  unfold groupSum
  apply List.sum_nonneg
  intro x hx
  rcases List.mem_map.1 hx with ⟨r, hr, rfl⟩
  exact h r (List.mem_of_mem_filter hr)

theorem bumpFold_nonneg {g : String → ℚ} {ks : List String}
    {m : List (String × ℚ)} (hg : ∀ s, 0 ≤ g s) (hm : ∀ p ∈ m, 0 ≤ p.2) :
    ∀ p ∈ ks.foldl (fun m s => bumpKey s (g s) m) m, 0 ≤ p.2 := by
  induction ks generalizing m with
  | nil => exact hm
  | cons s ks ih =>
    rw [List.foldl_cons]
    refine ih ?_
    intro p hp
    rcases mem_bumpKey hp with h | h | ⟨q, hq, rfl⟩
    · exact hm p h
    · rw [h]
      exact hg s
    · exact add_nonneg (hm q hq) (hg s)

theorem aggregateFund_nonneg {st : AggState} {df : CleanDF} {w : ℚ}
    (hw : 0 ≤ w) (hrows : ∀ r ∈ df.rows, 0 ≤ r.weight)
    (h1 : ∀ p ∈ st.holdings, 0 ≤ p.2.weight)
    (h2 : ∀ p ∈ st.sectors, 0 ≤ p.2) (h3 : ∀ p ∈ st.regions, 0 ≤ p.2) :
    (∀ p ∈ (aggregateFund st df w).holdings, 0 ≤ p.2.weight) ∧
    (∀ p ∈ (aggregateFund st df w).sectors, 0 ≤ p.2) ∧
    (∀ p ∈ (aggregateFund st df w).regions, 0 ≤ p.2) := by
  unfold aggregateFund
  refine ⟨foldl_rows_nonneg hw hrows h1, bumpFold_nonneg ?_ h2, bumpFold_nonneg ?_ h3⟩
  · intro s
    exact div_nonneg (mul_nonneg (groupSum_nonneg _ hrows s) hw) (by norm_num)
  · intro s
    exact div_nonneg (mul_nonneg (groupSum_nonneg _ hrows s) hw) (by norm_num)

theorem aggregateLoaded_foldl_nonneg {fs : List (CleanDF × ℚ)} {st : AggState}
    (hfs : ∀ p ∈ fs, 0 ≤ p.2 ∧ ∀ r ∈ p.1.rows, 0 ≤ r.weight)
    (h1 : ∀ p ∈ st.holdings, 0 ≤ p.2.weight)
    (h2 : ∀ p ∈ st.sectors, 0 ≤ p.2) (h3 : ∀ p ∈ st.regions, 0 ≤ p.2) :
    (∀ p ∈ (fs.foldl (fun st p => aggregateFund st p.1 p.2) st).holdings, 0 ≤ p.2.weight) ∧
    (∀ p ∈ (fs.foldl (fun st p => aggregateFund st p.1 p.2) st).sectors, 0 ≤ p.2) ∧
    (∀ p ∈ (fs.foldl (fun st p => aggregateFund st p.1 p.2) st).regions, 0 ≤ p.2) := by
  induction fs generalizing st with
  | nil => exact ⟨h1, h2, h3⟩
  | cons p rest ih =>
    rw [List.foldl_cons]
    obtain ⟨hw, hrows⟩ := hfs p (List.mem_cons_self p rest)
    obtain ⟨g1, g2, g3⟩ := aggregateFund_nonneg hw hrows h1 h2 h3
    exact ih (fun q hq => hfs q (List.mem_cons_of_mem p hq)) g1 g2 g3

/- ------------------------------------------------------------------ -/
/- Helper lemmas: overlap statistic                                   -/
/- ------------------------------------------------------------------ -/

theorem overlapCount_le (m : List (String × HoldingEntry)) (df : CleanDF) :
    overlapCount m df ≤ m.length := by
  unfold overlapCount
  calc ((((m.map (fun p => p.1)).dedup).filter
          (fun t => t ∈ df.rows.map (fun r => r.ticker))).length)
      ≤ ((m.map (fun p => p.1)).dedup).length := List.length_filter_le _ _
    _ ≤ (m.map (fun p => p.1)).length := (List.dedup_sublist _).length_le
    _ = m.length := List.length_map _ _

/- ------------------------------------------------------------------ -/
/- The claims                                                         -/
/- ------------------------------------------------------------------ -/

/-- C1: for every sequence of successfully loaded FundInputs, the
aggregated holdings mapping stores, for each identifier, the sum over all
funds of that fund's raw weight for the identifier times its allocation
percent over 100 (absent identifiers contributing 0), and the stored
name/sector/region are those of the first record encountered with that
identifier — later occurrences add weight but never overwrite them. -/
theorem claim_C1_weighted_merge (fs : List (CleanDF × ℚ)) (x : String) :
    holdingsWeight (aggregateLoaded fs) x = weightedSum fs x ∧
    descrAt (aggregateLoaded fs).holdings x = (firstRecordWith fs x).map rowDescr :=
  ⟨holdingsWeight_aggregateLoaded fs x, descrAt_aggregateLoaded fs x⟩

/-- C2 (counterexample): a loaded fund whose single retained row has a NaN
sector label keeps its weight in the holdings but `groupby` drops it from
every sector group, so the sectorWeights total falls short of the claimed
sum of (fund weight total times allocation over 100) — sector mass is
lost. -/
theorem claim_C2_counterexample :
    totalVals (aggregateLoaded [(dfNaN, 100)]).sectors ≠ massOf [(dfNaN, 100)] := by
  have h1 : totalVals (aggregateLoaded [(dfNaN, 100)]).sectors = 0 := rfl
  have h2 : massOf [(dfNaN, 100)] = 1 := by
    simp [massOf, rowsTotal, dfNaN]
  rw [h1, h2]
  norm_num

/-- C2 (amended): the holdings total always equals the sum over loaded
funds of (equity-filtered weight total times allocation over 100); the
sectorWeights and regionWeights totals equal the same sum restricted to the
rows whose sector (resp. region) label is present, because `groupby` drops
NaN keys; all three totals coincide whenever every retained row carries
both labels. -/
theorem claim_C2_mass_conservation (fs : List (CleanDF × ℚ)) :
    totalHold (aggregateLoaded fs).holdings = massOf fs ∧
    totalVals (aggregateLoaded fs).sectors = sectorMassOf fs ∧
    totalVals (aggregateLoaded fs).regions = regionMassOf fs ∧
    ((∀ p ∈ fs, ∀ r ∈ p.1.rows, (r.settore).isSome = true ∧ (r.area).isSome = true) →
      totalVals (aggregateLoaded fs).sectors = massOf fs ∧
      totalVals (aggregateLoaded fs).regions = massOf fs) := by
  obtain ⟨h1, h2, h3⟩ := totals_aggregateLoaded fs
  refine ⟨h1, h2, h3, ?_⟩
  intro hlab
  constructor
  · rw [h2]
    exact sectorMassOf_eq_massOf (fun p hp r hr => (hlab p hp r hr).1)
  · rw [h3]
    exact regionMassOf_eq_massOf (fun p hp r hr => (hlab p hp r hr).2)

/-- Witness for C2: on a fund list whose rows all carry sector and region
labels, the sector and region totals do equal the full mass sum. -/
theorem claim_C2_witness :
    totalVals (aggregateLoaded [(dfGood, 50)]).sectors = massOf [(dfGood, 50)] ∧
    totalVals (aggregateLoaded [(dfGood, 50)]).regions = massOf [(dfGood, 50)] :=
  (claim_C2_mass_conservation [(dfGood, 50)]).2.2.2 (by decide)

/-- C3 (counterexample): a table whose sector column is absent — a required
column — nevertheless loads successfully, refuting the claim that absence
of any required column is fatal at the loader boundary. -/
theorem claim_C3_counterexample :
    tNoSettore.hasSettore = false ∧
    (load_and_clean_data tNoSettore).isSome = true := by
  decide

/-- C3 (amended): the loader fails exactly when the file is unreadable or
its percentage-weight or asset-class column is absent; a file missing only
ticker, name, sector or region columns loads, and the failure then happens
later, uncaught, inside aggregation. -/
theorem claim_C3_loader_required_columns :
    (∀ t : RawTable,
      (load_and_clean_data t).isSome = (t.readable && t.hasPond && t.hasAsset)) ∧
    (∀ (t : RawTable) (w : ℚ) (df : CleanDF), load_and_clean_data t = some df →
      fundColsOk df = false → aggregate_portfolio_data [t] [w] = none) :=
  ⟨load_isSome_iff, aggregate_single_missing_col⟩

/-- Witness for C3: the loader verdicts on a file without its weight column
and on a file without its sector column, by direct evaluation. -/
theorem claim_C3_witness :
    (load_and_clean_data tBad).isSome = (tBad.readable && tBad.hasPond && tBad.hasAsset) ∧
    aggregate_portfolio_data [tNoSettore] [100] = none :=
  ⟨claim_C3_loader_required_columns.1 tBad,
   claim_C3_loader_required_columns.2 tNoSettore 100 dfNoSettore (by rfl) (by rfl)⟩

/-- C4 (counterexample): two funds disagreeing on the descriptive fields of
a shared identifier yield different stored descriptive fields under the two
orders, refuting equality of the full holdings mapping. -/
theorem claim_C4_counterexample :
    descrAt (aggregateLoaded [(dfX1, 50), (dfX2, 50)]).holdings "X" ≠
      descrAt (aggregateLoaded [(dfX2, 50), (dfX1, 50)]).holdings "X" := by
  decide

/-- C4 (amended): aggregation of a fund pair is order-independent in every
numeric component — holdings weight per identifier, sectorWeights and
regionWeights lookups — while the descriptive fields of an identifier held
by both funds come from whichever fund is processed first and may differ
between the two orders. -/
theorem claim_C4_order_independence (A B : CleanDF × ℚ) (x s t : String) :
    holdingsWeight (aggregateLoaded [A, B]) x =
      holdingsWeight (aggregateLoaded [B, A]) x ∧
    lookupOr0 (aggregateLoaded [A, B]).sectors s =
      lookupOr0 (aggregateLoaded [B, A]).sectors s ∧
    lookupOr0 (aggregateLoaded [A, B]).regions t =
      lookupOr0 (aggregateLoaded [B, A]).regions t := by
  refine ⟨?_, ?_, ?_⟩
  · rw [holdingsWeight_aggregateLoaded, holdingsWeight_aggregateLoaded]
    unfold weightedSum
    simp only [List.map_cons, List.map_nil, List.sum_cons, List.sum_nil]
    ring
  · rw [sectors_aggregateLoaded, sectors_aggregateLoaded]
    unfold sectorSumList
    simp only [List.map_cons, List.map_nil, List.sum_cons, List.sum_nil]
    ring
  · rw [regions_aggregateLoaded, regions_aggregateLoaded]
    unfold regionSumList
    simp only [List.map_cons, List.map_nil, List.sum_cons, List.sum_nil]
    ring

/-- C5: a fund file whose load fails is skipped entirely — aggregation of a
list containing it equals aggregation of the list without it, so a per-file
parse failure never aborts the run for the other files. -/
theorem claim_C5_failed_load_skipped (files₁ files₂ : List RawTable)
    (ws₁ ws₂ : List ℚ) (bad : RawTable) (w : ℚ)
    (hlen : files₁.length = ws₁.length)
    (hbad : load_and_clean_data bad = none) :
    aggregate_portfolio_data (files₁ ++ bad :: files₂) (ws₁ ++ w :: ws₂) =
      aggregate_portfolio_data (files₁ ++ files₂) (ws₁ ++ ws₂) :=
  aggregate_portfolio_data_skip files₁ files₂ ws₁ ws₂ bad w hlen hbad

/-- Witness for C5: dropping a concrete unloadable file from a concrete
fund list leaves the aggregation unchanged. -/
theorem claim_C5_witness :
    aggregate_portfolio_data [tGood, tBad] [60, 40] =
      aggregate_portfolio_data [tGood] [60] :=
  claim_C5_failed_load_skipped [tGood] [] [60] [] tBad 40 rfl rfl

/-- C6 (counterexample): a percentage cell spelling `inf` is accepted by
Python `float`, passes the strictly-greater-than-zero filter, and puts the
non-finite IEEE infinity among the loaded weights, refuting that every
weight in the system is finite. -/
theorem claim_C6_counterexample :
    loadedWeights_ieee tInf = some [PyFloat.inf] ∧
    PyFloat.inf.isFinite = false :=
  ⟨rfl, rfl⟩

/-- C6 (amended): after the loader's filter every record weight is strictly
positive and, for allocations in [0, 100], every aggregated
holdings/sector/region value is non-negative; every weight the filter lets
through is positive and is either finite or the IEEE infinity that an
inf-spelled cell produces — so finiteness holds except that `float`'s
infinities do pass the filter. -/
theorem claim_C6_weight_positivity :
    (∀ (t : RawTable) (df : CleanDF), load_and_clean_data t = some df →
      ∀ r ∈ df.rows, 0 < r.weight) ∧
    (∀ fs : List (CleanDF × ℚ),
      (∀ p ∈ fs, 0 ≤ p.2 ∧ p.2 ≤ 100 ∧ ∀ r ∈ p.1.rows, 0 < r.weight) →
      (∀ p ∈ (aggregateLoaded fs).holdings, 0 ≤ p.2.weight) ∧
      (∀ p ∈ (aggregateLoaded fs).sectors, 0 ≤ p.2) ∧
      (∀ p ∈ (aggregateLoaded fs).regions, 0 ≤ p.2)) ∧
    (∀ (t : RawTable) (ws : List PyFloat), loadedWeights_ieee t = some ws →
      ∀ x ∈ ws, x.gtZero = true ∧ (x.isFinite = true ∨ x = PyFloat.inf)) := by
  refine ⟨load_rows_pos, ?_, ?_⟩
  · intro fs hfs
    have hfs2 : ∀ p ∈ fs, 0 ≤ p.2 ∧ ∀ r ∈ p.1.rows, 0 ≤ r.weight := by
      intro p hp
      obtain ⟨h1, h2, h3⟩ := hfs p hp
      exact ⟨h1, fun r hr => le_of_lt (h3 r hr)⟩
    unfold aggregateLoaded
    exact aggregateLoaded_foldl_nonneg hfs2
      (fun p hp => absurd hp (List.not_mem_nil p))
      (fun p hp => absurd hp (List.not_mem_nil p))
      (fun p hp => absurd hp (List.not_mem_nil p))
  · intro t ws h x hx
    have hg := loadedWeights_ieee_mem h x hx
    exact ⟨hg, gtZero_finite_or_inf hg⟩

/-- Witness for C6: the positivity and nonnegativity conclusions at a
concrete loaded file and fund list, and the finite-or-infinity conclusion
at the inf-spelled file. -/
theorem claim_C6_witness :
    (∀ r ∈ dfGood.rows, 0 < r.weight) ∧
    ((∀ p ∈ (aggregateLoaded [(dfGood, 50)]).holdings, 0 ≤ p.2.weight) ∧
     (∀ p ∈ (aggregateLoaded [(dfGood, 50)]).sectors, 0 ≤ p.2) ∧
     (∀ p ∈ (aggregateLoaded [(dfGood, 50)]).regions, 0 ≤ p.2)) ∧
    (∀ x ∈ [PyFloat.inf], x.gtZero = true ∧ (x.isFinite = true ∨ x = PyFloat.inf)) :=
  ⟨claim_C6_weight_positivity.1 tGood dfGood (by rfl),
   claim_C6_weight_positivity.2.1 [(dfGood, 50)] (by decide),
   claim_C6_weight_positivity.2.2 tInf [PyFloat.inf] (by rfl)⟩

/-- C7: the normalizer never raises — missing (NaN) and empty inputs give
0.0, and every string whose normalized form fails to parse also gives 0.0
(the model is a total function, so absence of exceptions is intrinsic). -/
theorem claim_C7_never_raises :
    clean_percentage none = 0 ∧ clean_percentage (some []) = 0 ∧
    (∀ s : List Char, parseFloat (commaToDot (pyStrip s)) = none →
      clean_percentage (some s) = 0) := by
  refine ⟨rfl, rfl, ?_⟩
  intro s h
  unfold clean_percentage
  dsimp only
  by_cases hs : s = []
  · rw [if_pos hs]
  · rw [if_neg hs, h]

/-- Witness for C7: the string not-a-number fails to parse and the
normalizer returns 0 on it. -/
theorem claim_C7_witness :
    clean_percentage
      (some ['n', 'o', 't', '-', 'a', '-', 'n', 'u', 'm', 'b', 'e', 'r']) = 0 :=
  claim_C7_never_raises.2.2 _ (by rfl)

/-- C8: a percentage written with a decimal comma parses to its decimal
value — 12,34 gives 12.34, the dot spelling 12.34 gives the same value, and
in general replacing the commas of a string by dots never changes the
normalizer's result. -/
theorem claim_C8_comma_decimal :
    clean_percentage (some ['1', '2', ',', '3', '4']) = 12.34 ∧
    clean_percentage (some ['1', '2', '.', '3', '4']) = 12.34 ∧
    (∀ s : List Char,
      clean_percentage (some (commaToDot s)) = clean_percentage (some s)) := by
  refine ⟨?_, ?_, clean_percentage_commaToDot⟩
  · simp +decide [clean_percentage, pyStrip, commaToDot, swapComma, parseFloat,
      parseMantissa, parseExpNum, takeDigits, digitsVal, stripSign, applySign]
    norm_num
  · simp +decide [clean_percentage, pyStrip, commaToDot, swapComma, parseFloat,
      parseMantissa, parseExpNum, takeDigits, digitsVal, stripSign, applySign]
    norm_num

/-- C9: the overlap statistic is the count of distinct portfolio
identifiers present among the benchmark identifiers, over the portfolio
holdings count, times 100; it always lies in [0, 100] and is 0 for an empty
portfolio (no division by zero). -/
theorem claim_C9_overlap_bounds (m : List (String × HoldingEntry)) (df : CleanDF) :
    overlap_pct m df =
      (if m.isEmpty then 0 else (overlapCount m df : ℚ) / (m.length : ℚ) * 100) ∧
    0 ≤ overlap_pct m df ∧ overlap_pct m df ≤ 100 ∧
    overlap_pct [] df = 0 := by
  refine ⟨rfl, ?_, ?_, rfl⟩
  · unfold overlap_pct
    by_cases hm : m.isEmpty
    · rw [if_pos hm]
    · rw [if_neg hm]
      apply mul_nonneg _ (by norm_num)
      exact div_nonneg (Nat.cast_nonneg _) (Nat.cast_nonneg _)
  · unfold overlap_pct
    by_cases hm : m.isEmpty
    · rw [if_pos hm]
      norm_num
    · rw [if_neg hm]
      have hlen : 0 < m.length := by
        cases m with
        | nil => simp at hm
        | cons a l => simp
      have hn : (0 : ℚ) < (m.length : ℚ) := by exact_mod_cast hlen
      have hc : (overlapCount m df : ℚ) ≤ (m.length : ℚ) := by
        exact_mod_cast overlapCount_le m df
      calc (overlapCount m df : ℚ) / (m.length : ℚ) * 100 ≤ 1 * 100 := by
            apply mul_le_mul_of_nonneg_right _ (by norm_num)
            rw [div_le_one hn]
            exact hc
        _ = 100 := by norm_num

/-- C10: the normalizer replaces every comma, not only a decimal comma, so
any string with two or more commas, or mixing a dot with a comma, fails to
parse and gives 0; a nonzero result needs at most one comma and at most one
dot in total. -/
theorem claim_C10_comma_count (s : List Char) :
    ((2 ≤ s.count ',' ∨ (1 ≤ s.count ',' ∧ 1 ≤ s.count '.')) →
      clean_percentage (some s) = 0) ∧
    (clean_percentage (some s) ≠ 0 → s.count ',' ≤ 1 ∧ s.count '.' ≤ 1) := by
  constructor
  · intro h
    by_contra hne
    have hcount := clean_percentage_ne_zero_count hne
    rcases h with h | ⟨h1, h2⟩ <;> omega
  · intro h
    have hcount := clean_percentage_ne_zero_count h
    omega

/-- Witness for C10: the locale string 1.234,56 normalizes to 0, and a
plain digit string with a nonzero value has at most one comma and dot. -/
theorem claim_C10_witness :
    clean_percentage (some ['1', '.', '2', '3', '4', ',', '5', '6']) = 0 ∧
    (List.count ',' ['5'] ≤ 1 ∧ List.count '.' ['5'] ≤ 1) :=
  ⟨(claim_C10_comma_count _).1 (Or.inr ⟨by decide, by decide⟩),
   (claim_C10_comma_count _).2 (by decide)⟩

end EquityComposition
